import Mathlib

/-!
Shallow embedding of the QA harness of `fpga-sdrlib`
(`src/python/fpga_sdrlib/filterbank/qa_filterbank.py` and
`src/python/fpga_sdrlib/fft/qa_fft.py`).  Python numbers are modelled as
exact rationals (`ℚ`), complex samples as pairs of rationals, a Python
function that can raise as an `Option`-valued function.
-/

/-- Embedding of `convolve(data, taps)` (qa_filterbank.py, lines 21-29).
The source left-pads `data` with `len(taps)-1` zeros and then, for
`i in range(len(taps)-1, len(padded))`, accumulates
`v += padded[i-j]*taps[j]` for `j in range(len(taps))`, appending each `v`.
The iteration range is rendered as `List.range' (taps.length - 1) data.length`
(same start, same count, since `padded.length = (taps.length - 1) + data.length`);
indices are always in bounds for non-empty `taps`, so total indexing `getD _ 0`
coincides with Python's list indexing there. -/
def convolve (data taps : List ℚ) : List ℚ :=
  let padded := List.replicate (taps.length - 1) 0 ++ data
  (List.range' (taps.length - 1) data.length).map fun i =>
    (List.range taps.length).foldl (fun v j => v + padded.getD (i - j) 0 * taps.getD j 0) 0

/-- Embedding of `sum([abs(x) for x in taps])` (qa_filterbank.py, line 67). -/
def absintegral (taps : List ℚ) : ℚ := (taps.map fun x => |x|).sum

/-- Loop body of the maximum search in `scale_taps` (qa_filterbank.py,
lines 68-69): `if absintegral > maxabsintegral: maxabsintegral = absintegral`. -/
def maxStep (m : ℚ) (taps : List ℚ) : ℚ :=
  if absintegral taps > m then absintegral taps else m

/-- Maximum of the absolute-value sums, accumulated from `0` over the tap
lists exactly as the loop of `scale_taps` does (qa_filterbank.py, lines 65-69). -/
def maxabsintegral (tapss : List (List ℚ)) : ℚ := tapss.foldl maxStep 0

/-- Python division: raises `ZeroDivisionError` (here `none`) on a zero
denominator, otherwise returns the exact quotient. -/
def pydiv (a b : ℚ) : Option ℚ := if b = 0 then none else some (a / b)

/-- Inner comprehension `[t/maxabsintegral for t in taps]` of qa_filterbank.py
line 71, evaluated left to right with the first failing division aborting. -/
def divTaps (m : ℚ) : List ℚ → Option (List ℚ)
  | [] => some []
  | t :: ts =>
    match pydiv t m, divTaps m ts with
    | some y, some ys => some (y :: ys)
    | _, _ => none

/-- Outer comprehension of qa_filterbank.py line 71 over the tap lists. -/
def divTapss (m : ℚ) : List (List ℚ) → Option (List (List ℚ))
  | [] => some []
  | taps :: rest =>
    match divTaps m taps, divTapss m rest with
    | some ys, some yss => some (ys :: yss)
    | _, _ => none

/-- Embedding of `scale_taps(tapss)` (qa_filterbank.py, lines 61-72): compute
the maximal absolute-value sum, divide every tap by it, and return the scaled
lists together with the maximum; `none` models an uncaught
`ZeroDivisionError`. -/
def scale_taps (tapss : List (List ℚ)) : Option (List (List ℚ) × ℚ) :=
  let maxabs := maxabsintegral tapss
  match divTapss maxabs tapss with
  | some scaledtaps => some (scaledtaps, maxabs)
  | none => none

/-- Embedding of Python round-half-even (`round` of CPython) on an exact
rational: the nearest integer, ties going to the even one. -/
def roundHalfEven (q : ℚ) : ℤ :=
  if q - ⌊q⌋ < 1 / 2 then ⌊q⌋
  else if 1 / 2 < q - ⌊q⌋ then ⌊q⌋ + 1
  else if ⌊q⌋ % 2 = 0 then ⌊q⌋ else ⌊q⌋ + 1

/-- Embedding of `assertAlmostEqual(first, second, 3)` on real-valued samples:
unittest passes exactly when `round(abs(second - first), 3) == 0`, i.e. when
`roundHalfEven (|second - first| * 1000)` is zero. -/
def assertAlmostEqual3 (first second : ℚ) : Bool :=
  roundHalfEven (|second - first| * 1000) == 0

/-- Embedding of `assertAlmostEqual(first, second, 3)` on complex samples
(pairs of rationals): unittest rounds the modulus `|second - first|`, and for
a nonnegative modulus `round(m, 3) == 0` holds exactly when `m ≤ 1/2000`,
i.e. `m^2 ≤ 1/4000000`, which states the test without the square root. -/
def assertAlmostEqual3c (first second : ℚ × ℚ) : Bool :=
  decide (((second.1 - first.1) ^ 2 + (second.2 - first.2) ^ 2) * 4000000 ≤ 1)

/-- Embedding of the sample comparison of the FFT test benches (qa_fft.py,
lines 77-80 and 126-129): assert equal lengths, then
`assertAlmostEqual(e, r, 3)` for `r, e` in `zip(tb.out_samples, expected)`. -/
def fftSamplesCheck (outSamples expected : List (ℚ × ℚ)) : Bool :=
  (outSamples.length == expected.length) &&
    ((outSamples.zip expected).all fun p => assertAlmostEqual3c p.2 p.1)

/-- Embedding of the sample comparison of the filterbank test (qa_filterbank.py,
lines 119-123): `assertAlmostEqual(r, e, 3)` for every received/expected pair
of every per-filter stream. -/
def fbSamplesCheck (received expected : List (List ℚ)) : Bool :=
  (received.zip expected).all fun rses =>
    (rses.1.zip rses.2).all fun p => assertAlmostEqual3 p.1 p.2

/-- Embedding of the metadata assertions (qa_filterbank.py, lines 124-127):
`assertEqual(len(tb.out_ms), len(ms))` and `assertEqual(r, e)` for `r, e` in
`zip(tb.out_ms, ms)`. -/
def msCheck (outMs ms : List ℕ) : Bool :=
  (outMs.length == ms.length) && ((outMs.zip ms).all fun p => p.1 == p.2)

/-- Embedding of `ffs = ([1] + [0]*(n_filters-1))*n_data`
(qa_filterbank.py, line 113). -/
def expected_ffs (nFilters nData : ℕ) : List ℕ :=
  (List.replicate nData (1 :: List.replicate (nFilters - 1) 0)).flatten

/-- Embedding of the first-filter assertions (qa_filterbank.py, lines 128-131):
`assertEqual(len(tb.out_ff), len(ffs))` and `assertEqual(r, e)` for `r, e` in
`zip(tb.out_ff, ffs)`. -/
def ffCheck (outFf ffs : List ℕ) : Bool :=
  (outFf.length == ffs.length) && ((outFf.zip ffs).all fun p => p.1 == p.2)

/-- Embedding of `expected = in_samples` (qa_fft.py, line 51 in
`TestDIT.test_one` and line 102 in `TestStage.test_one`): both FFT test
benches take the raw input sample list itself as the expected output
sequence. -/
def fft_test_expected {α : Type} (inSamples : List α) : List α := inSamples

/-- Modelled from the spec: the `FFT reference implementation in floating
point` named by the spec is not among the shown sources.  This is the
discrete Fourier transform of `xs`: entry `k` is `∑ n, xs[n] * ω^(n*k)`,
where `ω` is the length-`N` twiddle factor (`exp(-2πi/N)` over `ℂ`). -/
def dftRef {α : Type} [CommRing α] (ω : α) (xs : List α) : List α :=
  (List.range xs.length).map fun k =>
    ((xs.zip (List.range xs.length)).map fun p => p.1 * ω ^ (p.2 * k)).sum

/-- Loop body of `prune_zeros` (qa_fft.py, lines 21-25): for the element
`ix.2` at index `ix.1`, a nonzero element sets `start_index` when still unset
and always updates `stop_index`. -/
def pruneStep (p : Option ℕ × Option ℕ) (ix : ℕ × ℚ) : Option ℕ × Option ℕ :=
  if ix.2 ≠ 0 then
    (match p.1 with
     | none => some ix.1
     | some s => some s,
     some ix.1)
  else p

/-- Embedding of `prune_zeros(xs)` (qa_fft.py, lines 18-29): scan the
enumerated list for the first and last nonzero indices, then return the slice
`xs[start_index : stop_index + 1]`, or `[]` when no index was found. -/
def prune_zeros (xs : List ℚ) : List ℚ :=
  match xs.enum.foldl pruneStep (none, none) with
  | (some s, some e) => (xs.drop s).take (e + 1 - s)
  | _ => []

/-- Index (offset by `n`) of the first nonzero element of a list. -/
def firstNz (n : ℕ) : List ℚ → Option ℕ
  | [] => none
  | x :: t => if x ≠ 0 then some n else firstNz (n + 1) t

/-- Index (offset by `n`) of the last nonzero element of a list. -/
def lastNz (n : ℕ) : List ℚ → Option ℕ
  | [] => none
  | x :: t =>
    match lastNz (n + 1) t with
    | some e => some e
    | none => if x ≠ 0 then some n else none

/-- Folding `v + g j` over `List.range n` starting from `v` is `v` plus the
corresponding finite sum. -/
lemma foldl_add_range (g : ℕ → ℚ) : ∀ (n : ℕ) (v : ℚ),
    (List.range n).foldl (fun acc j => acc + g j) v = v + ∑ j ∈ Finset.range n, g j := by
  intro n
  induction n with
  | zero => intro v; simp
  | succ n ih =>
    intro v
    rw [List.range_succ, List.foldl_append, Finset.sum_range_succ]
    simp [ih, add_assoc]

/-- C1: for every list `data` and non-empty `taps`, `convolve data taps` has
exactly `data.length` elements, and its `i`-th element is the sliding-window
weighted sum `∑ j, padded[taps.length - 1 + i - j] * taps[j]` over `data`
left-padded with `taps.length - 1` zeros. -/
theorem convolve_spec (data taps : List ℚ) (h : taps ≠ []) :
    (convolve data taps).length = data.length ∧
    ∀ i, i < data.length →
      (convolve data taps).getD i 0 =
        ∑ j ∈ Finset.range taps.length,
          (List.replicate (taps.length - 1) 0 ++ data).getD (taps.length - 1 + i - j) 0 *
            taps.getD j 0 := by
  constructor
  · simp [convolve]
  · intro i hi
    have hlen : i < ((List.range' (taps.length - 1) data.length).map fun i =>
        (List.range taps.length).foldl
          (fun v j => v + (List.replicate (taps.length - 1) 0 ++ data).getD (i - j) 0 *
            taps.getD j 0) 0).length := by
      simpa using hi
    rw [convolve]
    rw [List.getD_eq_getElem _ _ hlen]
    rw [List.getElem_map]
    rw [List.getElem_range']
    rw [foldl_add_range]
    rw [zero_add]
    simp

lemma absintegral_nonneg (taps : List ℚ) : 0 ≤ absintegral taps := by
  apply List.sum_nonneg
  intro x hx
  obtain ⟨a, -, rfl⟩ := List.mem_map.mp hx
  exact abs_nonneg a

lemma abs_le_absintegral {taps : List ℚ} {t : ℚ} (ht : t ∈ taps) :
    |t| ≤ absintegral taps := by
  apply List.single_le_sum
  · intro x hx
    obtain ⟨a, -, rfl⟩ := List.mem_map.mp hx
    exact abs_nonneg a
  · exact List.mem_map_of_mem _ ht

lemma absintegral_pos {taps : List ℚ} {t : ℚ} (ht : t ∈ taps) (hnz : t ≠ 0) :
    0 < absintegral taps :=
  lt_of_lt_of_le (abs_pos.mpr hnz) (abs_le_absintegral ht)

lemma absintegral_eq_zero {taps : List ℚ} (h : ∀ t ∈ taps, t = 0) :
    absintegral taps = 0 := by
  apply List.sum_eq_zero
  intro x hx
  obtain ⟨a, ha, rfl⟩ := List.mem_map.mp hx
  simp [h a ha]

/-- Behaviour of the maximum-search fold of `scale_taps` from an arbitrary
seed: the seed never decreases, the result dominates every absolute-value sum,
and the result is the seed or one of the absolute-value sums. -/
lemma maxfold_spec (tapss : List (List ℚ)) : ∀ m0 : ℚ,
    m0 ≤ tapss.foldl maxStep m0 ∧
    (∀ taps ∈ tapss, absintegral taps ≤ tapss.foldl maxStep m0) ∧
    (tapss.foldl maxStep m0 = m0 ∨
      ∃ taps ∈ tapss, tapss.foldl maxStep m0 = absintegral taps) := by
  induction tapss with
  | nil => intro m0; simp
  | cons hd tl ih =>
    intro m0
    simp only [List.foldl_cons, maxStep]
    by_cases hc : absintegral hd > m0
    · rw [if_pos hc]
      obtain ⟨h1, h2, h3⟩ := ih (absintegral hd)
      refine ⟨le_trans (le_of_lt hc) h1, ?_, ?_⟩
      · intro taps htaps
        rcases List.mem_cons.mp htaps with rfl | hmem
        · exact h1
        · exact h2 taps hmem
      · rcases h3 with h | ⟨taps, hmem, heq⟩
        · exact Or.inr ⟨hd, List.mem_cons_self hd tl, h⟩
        · exact Or.inr ⟨taps, List.mem_cons_of_mem _ hmem, heq⟩
    · rw [if_neg hc]
      push_neg at hc
      obtain ⟨h1, h2, h3⟩ := ih m0
      refine ⟨h1, ?_, ?_⟩
      · intro taps htaps
        rcases List.mem_cons.mp htaps with rfl | hmem
        · exact le_trans hc h1
        · exact h2 taps hmem
      · rcases h3 with h | ⟨taps, hmem, heq⟩
        · exact Or.inl h
        · exact Or.inr ⟨taps, List.mem_cons_of_mem _ hmem, heq⟩

lemma maxabs_ge {tapss : List (List ℚ)} {taps : List ℚ} (h : taps ∈ tapss) :
    absintegral taps ≤ maxabsintegral tapss :=
  (maxfold_spec tapss 0).2.1 taps h

lemma maxabs_nonneg (tapss : List (List ℚ)) : 0 ≤ maxabsintegral tapss :=
  (maxfold_spec tapss 0).1

lemma maxabs_pos {tapss : List (List ℚ)} {taps : List ℚ} {t : ℚ}
    (htaps : taps ∈ tapss) (ht : t ∈ taps) (hnz : t ≠ 0) :
    0 < maxabsintegral tapss :=
  lt_of_lt_of_le (absintegral_pos ht hnz) (maxabs_ge htaps)

lemma maxabs_achieved {tapss : List (List ℚ)} (hne : tapss ≠ []) :
    ∃ taps ∈ tapss, absintegral taps = maxabsintegral tapss := by
  rcases (maxfold_spec tapss 0).2.2 with h0 | ⟨taps, hmem, heq⟩
  · obtain ⟨hd, tl, rfl⟩ := List.exists_cons_of_ne_nil hne
    refine ⟨hd, List.mem_cons_self hd tl, ?_⟩
    have h1 : absintegral hd ≤ maxabsintegral (hd :: tl) :=
      maxabs_ge (List.mem_cons_self hd tl)
    have h2 : maxabsintegral (hd :: tl) = 0 := h0
    rw [h2]
    exact le_antisymm (h2 ▸ h1) (absintegral_nonneg hd)
  · exact ⟨taps, hmem, heq.symm⟩

lemma maxabs_all_zero {tapss : List (List ℚ)}
    (h : ∀ taps ∈ tapss, ∀ t ∈ taps, t = 0) : maxabsintegral tapss = 0 := by
  rcases (maxfold_spec tapss 0).2.2 with h0 | ⟨taps, hmem, heq⟩
  · exact h0
  · exact heq.trans (absintegral_eq_zero (h taps hmem))

lemma divTaps_eq {m : ℚ} (hm : m ≠ 0) : ∀ ts : List ℚ,
    divTaps m ts = some (ts.map fun t => t / m) := by
  intro ts
  induction ts with
  | nil => rfl
  | cons t ts ih => simp [divTaps, pydiv, hm, ih]

lemma divTapss_eq {m : ℚ} (hm : m ≠ 0) : ∀ tapss : List (List ℚ),
    divTapss m tapss = some (tapss.map (List.map fun t => t / m)) := by
  intro tapss
  induction tapss with
  | nil => rfl
  | cons taps rest ih => simp [divTapss, divTaps_eq hm, ih]

lemma scale_taps_eq {tapss : List (List ℚ)} (hm : maxabsintegral tapss ≠ 0) :
    scale_taps tapss =
      some (tapss.map (List.map fun t => t / maxabsintegral tapss),
        maxabsintegral tapss) := by
  simp [scale_taps, divTapss_eq hm]

lemma divTapss_zero_none_iff : ∀ tapss : List (List ℚ),
    divTapss 0 tapss = none ↔ ∃ taps ∈ tapss, taps ≠ [] := by
  intro tapss
  induction tapss with
  | nil => simp [divTapss]
  | cons taps rest ih =>
    cases taps with
    | nil =>
      have h0 : divTaps 0 ([] : List ℚ) = some [] := rfl
      constructor
      · intro h
        rw [divTapss, h0] at h
        rcases hrest : divTapss 0 rest with _ | v
        · obtain ⟨t, ht, hne⟩ := ih.mp hrest
          exact ⟨t, List.mem_cons_of_mem _ ht, hne⟩
        · rw [hrest] at h; exact absurd h (by simp)
      · rintro ⟨t, ht, hne⟩
        rcases List.mem_cons.mp ht with rfl | hmem
        · exact absurd rfl hne
        · rw [divTapss, h0]
          rw [ih.mpr ⟨t, hmem, hne⟩]
    | cons t ts =>
      have h0 : divTaps 0 (t :: ts) = none := by
        simp [divTaps, pydiv]
      constructor
      · intro _
        exact ⟨t :: ts, List.mem_cons_self _ _, by simp⟩
      · intro _
        rw [divTapss, h0]

lemma absintegral_map_div {m : ℚ} (hm : 0 < m) : ∀ ts : List ℚ,
    absintegral (ts.map fun t => t / m) = absintegral ts / m := by
  intro ts
  induction ts with
  | nil => simp [absintegral]
  | cons t ts ih =>
    simp only [absintegral, List.map_cons, List.sum_cons] at ih ⊢
    rw [ih, abs_div, abs_of_pos hm, add_div]

lemma map_div_mul_cancel {m : ℚ} (hm : m ≠ 0) : ∀ l : List ℚ,
    (l.map fun t => t / m).map (fun t => t * m) = l := by
  intro l
  induction l with
  | nil => rfl
  | cons t ts ih => simp [ih, div_mul_cancel₀ _ hm]

lemma map_map_div_mul_cancel {m : ℚ} (hm : m ≠ 0) : ∀ tapss : List (List ℚ),
    (tapss.map (List.map fun t => t / m)).map (List.map fun t => t * m) = tapss := by
  intro tapss
  induction tapss with
  | nil => rfl
  | cons taps rest ih =>
    simp only [List.map_cons, List.cons.injEq]
    exact ⟨map_div_mul_cancel hm taps, ih⟩

/-- C2: on a non-empty list of tap lists with at least one nonzero tap,
`scale_taps` returns `some (scaledtaps, M)` where `M` is the maximum of the
absolute-value sums of the tap lists (it dominates each and is attained) and
the scaled lists are exactly the original lists with every tap divided
by `M`. -/
theorem scale_taps_spec (tapss : List (List ℚ)) (hne : tapss ≠ [])
    (hnz : ∃ taps ∈ tapss, ∃ t ∈ taps, t ≠ 0) :
    ∃ M, scale_taps tapss = some (tapss.map (List.map fun t => t / M), M) ∧
      (∀ taps ∈ tapss, absintegral taps ≤ M) ∧
      (∃ taps ∈ tapss, absintegral taps = M) := by
  obtain ⟨taps, hmem, t, ht, hz⟩ := hnz
  have hpos := maxabs_pos hmem ht hz
  exact ⟨maxabsintegral tapss, scale_taps_eq (ne_of_gt hpos),
    fun _ h => maxabs_ge h, maxabs_achieved hne⟩

/-- Witness for C2 at `tapss = [[1, -2], [3, 1]]`. -/
theorem scale_taps_spec_witness :
    ∃ M, scale_taps [[(1 : ℚ), -2], [3, 1]] =
        some ([[(1 : ℚ), -2], [3, 1]].map (List.map fun t => t / M), M) ∧
      (∀ taps ∈ [[(1 : ℚ), -2], [3, 1]], absintegral taps ≤ M) ∧
      (∃ taps ∈ [[(1 : ℚ), -2], [3, 1]], absintegral taps = M) :=
  scale_taps_spec [[1, -2], [3, 1]] (by decide) ⟨[1, -2], by decide, 1, by decide, by decide⟩

/-- C7: on a non-empty list of tap lists with at least one nonzero tap, every
scaled tap list returned by `scale_taps` has absolute-value sum at most `1`,
and at least one scaled tap list has absolute-value sum exactly `1`. -/
theorem scale_taps_bounds (tapss : List (List ℚ)) (hne : tapss ≠ [])
    (hnz : ∃ taps ∈ tapss, ∃ t ∈ taps, t ≠ 0) :
    ∃ scaled M, scale_taps tapss = some (scaled, M) ∧
      (∀ staps ∈ scaled, absintegral staps ≤ 1) ∧
      (∃ staps ∈ scaled, absintegral staps = 1) := by
  obtain ⟨taps, hmem, t, ht, hz⟩ := hnz
  have hpos := maxabs_pos hmem ht hz
  refine ⟨tapss.map (List.map fun t => t / maxabsintegral tapss), maxabsintegral tapss,
    scale_taps_eq (ne_of_gt hpos), ?_, ?_⟩
  · intro staps hstaps
    obtain ⟨ts, hts, rfl⟩ := List.mem_map.mp hstaps
    rw [absintegral_map_div hpos]
    exact (div_le_one hpos).mpr (maxabs_ge hts)
  · obtain ⟨ts, hts, hmax⟩ := maxabs_achieved hne
    refine ⟨ts.map fun t => t / maxabsintegral tapss, List.mem_map_of_mem _ hts, ?_⟩
    rw [absintegral_map_div hpos, hmax, div_self (ne_of_gt hpos)]

/-- Witness for C7 at `tapss = [[1, -2], [3, 1]]`. -/
theorem scale_taps_bounds_witness :
    ∃ scaled M, scale_taps [[(1 : ℚ), -2], [3, 1]] = some (scaled, M) ∧
      (∀ staps ∈ scaled, absintegral staps ≤ 1) ∧
      (∃ staps ∈ scaled, absintegral staps = 1) :=
  scale_taps_bounds [[1, -2], [3, 1]] (by decide) ⟨[1, -2], by decide, 1, by decide, by decide⟩

/-- C9 (corrected): `scale_taps` hits the division by zero exactly when some
tap list is non-empty and every tap of every list is zero.  In particular an
empty list of tap lists, or a list of empty tap lists, returns normally
because the comprehension performs no division at all. -/
theorem scale_taps_none_iff (tapss : List (List ℚ)) :
    scale_taps tapss = none ↔
      ((∃ taps ∈ tapss, taps ≠ []) ∧ ∀ taps ∈ tapss, ∀ t ∈ taps, t = 0) := by
  constructor
  · intro h
    by_cases hz : ∀ taps ∈ tapss, ∀ t ∈ taps, t = 0
    · refine ⟨?_, hz⟩
      have hm := maxabs_all_zero hz
      rw [scale_taps, hm] at h
      rcases hdiv : divTapss 0 tapss with _ | v
      · exact (divTapss_zero_none_iff tapss).mp hdiv
      · rw [hdiv] at h
        exact absurd h (by simp)
    · exfalso
      push_neg at hz
      obtain ⟨taps, hmem, t, ht, htz⟩ := hz
      have hpos := maxabs_pos hmem ht htz
      rw [scale_taps_eq (ne_of_gt hpos)] at h
      exact absurd h (by simp)
  · rintro ⟨⟨taps, hmem, hne⟩, hz⟩
    have hm := maxabs_all_zero hz
    rw [scale_taps, hm, (divTapss_zero_none_iff tapss).mpr ⟨taps, hmem, hne⟩]

/-- Counterexample for C9 as frozen: on the empty list of tap lists the
maximum stays `0` yet no division is evaluated, so `scale_taps` returns
`([], 0)` normally instead of raising. -/
theorem scale_taps_empty_ok : scale_taps ([] : List (List ℚ)) = some ([], 0) := rfl

/-- C10: multiplying every scaled tap by the returned maximum `M` recovers the
original list of tap lists exactly, shape included. -/
theorem scale_taps_roundtrip (tapss : List (List ℚ)) (hne : tapss ≠ [])
    (hnz : ∃ taps ∈ tapss, ∃ t ∈ taps, t ≠ 0) :
    ∃ scaled M, scale_taps tapss = some (scaled, M) ∧
      scaled.map (List.map fun t => t * M) = tapss := by
  obtain ⟨taps, hmem, t, ht, hz⟩ := hnz
  have hpos := maxabs_pos hmem ht hz
  exact ⟨tapss.map (List.map fun t => t / maxabsintegral tapss), maxabsintegral tapss,
    scale_taps_eq (ne_of_gt hpos), map_map_div_mul_cancel (ne_of_gt hpos) tapss⟩

/-- Witness for C10 at `tapss = [[1, -2], [3, 1]]`. -/
theorem scale_taps_roundtrip_witness :
    ∃ scaled M, scale_taps [[(1 : ℚ), -2], [3, 1]] = some (scaled, M) ∧
      scaled.map (List.map fun t => t * M) = [[(1 : ℚ), -2], [3, 1]] :=
  scale_taps_roundtrip [[1, -2], [3, 1]] (by decide) ⟨[1, -2], by decide, 1, by decide, by decide⟩

/-- Length check plus pairwise equality over the zip is exactly list
equality. -/
lemma length_zip_all_eq_iff : ∀ xs ys : List ℕ,
    (((xs.length == ys.length) && ((xs.zip ys).all fun p => p.1 == p.2)) = true) ↔
      xs = ys := by
  intro xs
  induction xs with
  | nil => intro ys; cases ys <;> simp
  | cons x xs ih =>
    intro ys
    cases ys with
    | nil => simp
    | cons y ys =>
      simp only [List.length_cons, List.zip_cons_cons, List.all_cons, Bool.and_eq_true,
        beq_iff_eq, List.cons.injEq]
      rw [← ih ys]
      simp only [Bool.and_eq_true, beq_iff_eq]
      constructor
      · rintro ⟨h1, h2, h3⟩
        exact ⟨h2, by omega, h3⟩
      · rintro ⟨h1, h2, h3⟩
        exact ⟨by omega, h1, h3⟩

/-- C4: the metadata assertions of the filterbank test pass exactly when the
captured metadata stream equals the input metadata stream elementwise, same
length included: the stream round-trips exactly, with no tolerance. -/
theorem ms_roundtrip (outMs ms : List ℕ) : msCheck outMs ms = true ↔ outMs = ms :=
  length_zip_all_eq_iff outMs ms

lemma getD_replicate_zero : ∀ k j : ℕ, (List.replicate k (0 : ℕ)).getD j 0 = 0 := by
  intro k
  induction k with
  | zero => intro j; rfl
  | succ k ih =>
    intro j
    cases j with
    | zero => rfl
    | succ j => simpa [List.replicate_succ] using ih j

lemma expected_ffs_succ (nFilters nData : ℕ) :
    expected_ffs nFilters (nData + 1) =
      (1 :: List.replicate (nFilters - 1) 0) ++ expected_ffs nFilters nData := by
  simp [expected_ffs, List.replicate_succ]

lemma expected_ffs_length {nFilters : ℕ} (hn : 1 ≤ nFilters) : ∀ nData : ℕ,
    (expected_ffs nFilters nData).length = nData * nFilters := by
  intro nData
  induction nData with
  | zero => simp [expected_ffs]
  | succ d ih =>
    rw [expected_ffs_succ, List.length_append, ih]
    simp only [List.length_cons, List.length_replicate]
    have h1 : (d + 1) * nFilters = d * nFilters + nFilters := by ring
    omega

lemma expected_ffs_getD {nFilters : ℕ} (hn : 1 ≤ nFilters) : ∀ nData i : ℕ,
    i < nData * nFilters →
      (expected_ffs nFilters nData).getD i 0 = if i % nFilters = 0 then 1 else 0 := by
  intro nData
  induction nData with
  | zero => intro i hi; simp at hi
  | succ d ih =>
    intro i hi
    rw [expected_ffs_succ]
    have hblock : (1 :: List.replicate (nFilters - 1) (0 : ℕ)).length = nFilters := by
      simp only [List.length_cons, List.length_replicate]; omega
    by_cases hcase : i < nFilters
    · rw [List.getD_append _ _ _ _ (by omega)]
      cases i with
      | zero => simp [Nat.zero_mod]
      | succ j =>
        have hij : (j + 1) % nFilters = j + 1 := Nat.mod_eq_of_lt hcase
        rw [hij]
        simp only [List.getD_cons_succ]
        rw [getD_replicate_zero]
        simp
    · push_neg at hcase
      rw [List.getD_append_right _ _ _ _ (by omega)]
      rw [hblock]
      have hmod : i % nFilters = (i - nFilters) % nFilters :=
        Nat.mod_eq_sub_mod hcase
      rw [hmod]
      apply ih
      have : (d + 1) * nFilters = d * nFilters + nFilters := by ring
      omega

/-- C5: the expected first-filter stream of the filterbank test is the block
`[1] ++ [0]*(nFilters-1)` repeated `nData` times, i.e. it has `nData*nFilters`
elements with a `1` exactly at the indices divisible by `nFilters`; the
captured stream passes the test assertions exactly when it equals this
pattern elementwise, same length included. -/
theorem first_filter_pattern (nFilters nData : ℕ) (hn : 1 ≤ nFilters) :
    (expected_ffs nFilters nData).length = nData * nFilters ∧
    (∀ i, i < nData * nFilters →
      (expected_ffs nFilters nData).getD i 0 = if i % nFilters = 0 then 1 else 0) ∧
    (∀ outFf, ffCheck outFf (expected_ffs nFilters nData) = true ↔
      outFf = expected_ffs nFilters nData) :=
  ⟨expected_ffs_length hn nData, expected_ffs_getD hn nData,
    fun outFf => length_zip_all_eq_iff outFf (expected_ffs nFilters nData)⟩

/-- Witness for C5 at the values of `test_simple`: `nFilters = 4`,
`nData = 10`. -/
theorem first_filter_pattern_witness :
    (expected_ffs 4 10).length = 10 * 4 ∧
    (∀ i, i < 10 * 4 →
      (expected_ffs 4 10).getD i 0 = if i % 4 = 0 then 1 else 0) ∧
    (∀ outFf, ffCheck outFf (expected_ffs 4 10) = true ↔ outFf = expected_ffs 4 10) :=
  first_filter_pattern 4 10 (by decide)

lemma roundHalfEven_eq_zero_iff {q : ℚ} (hq : 0 ≤ q) :
    roundHalfEven q = 0 ↔ q ≤ 1 / 2 := by
  unfold roundHalfEven
  have hf0 : (0 : ℤ) ≤ ⌊q⌋ := Int.floor_nonneg.mpr hq
  by_cases hle : q ≤ 1 / 2
  · have hq1 : q < 1 := lt_of_le_of_lt hle (by norm_num)
    have hfeq : ⌊q⌋ = 0 := by
      rw [Int.floor_eq_zero_iff]
      exact ⟨hq, hq1⟩
    rw [hfeq]
    push_cast
    simp only [sub_zero]
    by_cases hlt : q < 1 / 2
    · rw [if_pos hlt]
      simpa using hle
    · rw [if_neg hlt, if_neg (not_lt.mpr hle)]
      norm_num [hle]
  · constructor
    · intro h
      exfalso
      push_neg at hle
      by_cases hf1 : ⌊q⌋ = 0
      · rw [hf1] at h
        push_cast at h
        simp only [sub_zero] at h
        rw [if_neg (not_lt.mpr (le_of_lt hle)), if_pos hle] at h
        norm_num at h
      · have hf2 : 1 ≤ ⌊q⌋ := by omega
        split_ifs at h <;> omega
    · intro h
      exact absurd h hle

/-- Behaviour of `assertAlmostEqual(_, _, 3)` on real samples: it passes
exactly on differences of magnitude at most `1/2000`. -/
lemma assertAlmostEqual3_iff (first second : ℚ) :
    assertAlmostEqual3 first second = true ↔ |second - first| ≤ 1 / 2000 := by
  unfold assertAlmostEqual3
  rw [beq_iff_eq, roundHalfEven_eq_zero_iff (by positivity)]
  constructor <;> intro h <;> linarith

/-- Behaviour of `assertAlmostEqual(_, _, 3)` on complex samples: it passes
exactly when the squared modulus of the difference is at most `1/2000^2`. -/
lemma assertAlmostEqual3c_iff (first second : ℚ × ℚ) :
    assertAlmostEqual3c first second = true ↔
      (second.1 - first.1) ^ 2 + (second.2 - first.2) ^ 2 ≤ 1 / 4000000 := by
  unfold assertAlmostEqual3c
  rw [decide_eq_true_iff]
  constructor <;> intro h <;> linarith

/-- C6: every sample comparison of the FFT and filterbank tests is the
places-3 `assertAlmostEqual` tolerance check (a bound of `1/2000` on the
difference magnitude, coming from rounding to 3 decimal places), and it is
not exact equality: both embedded comparison loops accept streams whose
entries differ from the reference. -/
theorem sample_comparisons_tolerance :
    (∀ first second : ℚ,
      assertAlmostEqual3 first second = true ↔ |second - first| ≤ 1 / 2000) ∧
    (∀ first second : ℚ × ℚ,
      assertAlmostEqual3c first second = true ↔
        (second.1 - first.1) ^ 2 + (second.2 - first.2) ^ 2 ≤ 1 / 4000000) ∧
    (∃ r e : ℚ, r ≠ e ∧ fbSamplesCheck [[r]] [[e]] = true) ∧
    (∃ r e : ℚ × ℚ, r ≠ e ∧ fftSamplesCheck [r] [e] = true) := by
  refine ⟨assertAlmostEqual3_iff, assertAlmostEqual3c_iff, ?_, ?_⟩
  · refine ⟨1 / 10000, 0, by norm_num, ?_⟩
    simp only [fbSamplesCheck, List.zip_cons_cons, List.zip_nil_right, List.all_cons,
      List.all_nil, Bool.and_true]
    rw [assertAlmostEqual3_iff]
    norm_num [abs_le]
  · refine ⟨(1 / 10000, 0), (0, 0), by norm_num, ?_⟩
    simp only [fftSamplesCheck, List.length_cons, List.length_nil, List.zip_cons_cons,
      List.zip_nil_right, List.all_cons, List.all_nil, Bool.and_true, beq_self_eq_true,
      Bool.true_and]
    rw [assertAlmostEqual3c_iff]
    norm_num

/-- Counterexample to C3 as frozen: the `expected` stream of the FFT tests is
the input itself, not its FFT.  On the unit impulse of length 8 the DFT (with
the N = 8 twiddle factor `exp(-2πi/8)`) is the all-ones vector, which differs
from the impulse the code would use as `expected`. -/
theorem fft_expected_not_dft :
    fft_test_expected [(1 : ℂ), 0, 0, 0, 0, 0, 0, 0] ≠
      dftRef (Complex.exp (-(2 * Real.pi * Complex.I) / 8))
        [(1 : ℂ), 0, 0, 0, 0, 0, 0, 0] := by
  intro h
  have hr : List.range ([(1 : ℂ), 0, 0, 0, 0, 0, 0, 0].length) = [0, 1, 2, 3, 4, 5, 6, 7] :=
    rfl
  rw [fft_test_expected, dftRef, hr] at h
  simp only [List.zip_cons_cons, List.zip_nil_right, List.map_cons, List.map_nil,
    List.sum_cons, List.sum_nil, zero_mul, one_mul, mul_zero, add_zero, zero_add,
    Nat.mul_zero, Nat.zero_mul, pow_zero, List.zip_nil_left, List.cons.injEq] at h
  exact zero_ne_one h.2.1

/-- Pairwise boolean check over the zip of two equally long lists, stated by
index. -/
lemma zip_all_getD_iff {α β : Type} (p : α → β → Bool) (da : α) (db : β) :
    ∀ (xs : List α) (ys : List β), xs.length = ys.length →
      ((((xs.zip ys).all fun q => p q.1 q.2) = true) ↔
        ∀ i, i < ys.length → p (xs.getD i da) (ys.getD i db) = true) := by
  intro xs
  induction xs with
  | nil =>
    intro ys h
    cases ys with
    | nil => simp
    | cons y ys => simp at h
  | cons x xs ih =>
    intro ys h
    cases ys with
    | nil => simp at h
    | cons y ys =>
      simp only [List.zip_cons_cons, List.all_cons, Bool.and_eq_true]
      rw [ih ys (by simpa using h)]
      constructor
      · rintro ⟨h1, h2⟩ i hi
        cases i with
        | zero => simpa using h1
        | succ j =>
          simp only [List.getD_cons_succ]
          exact h2 j (by simpa using hi)
      · intro hall
        refine ⟨by simpa using hall 0 (by simp), fun j hj => ?_⟩
        have := hall (j + 1) (by simpa using hj)
        simpa using this

/-- C3 (corrected): the sequence the FFT test benches compare the captured
output against is the input sample stream itself, to the places-3 tolerance:
the embedded comparison passes exactly when the output has the input's length
and every output sample is within `1/2000` (in modulus) of the corresponding
raw input sample — no FFT is applied to form the reference. -/
theorem fft_expected_is_input (outSamples inSamples : List (ℚ × ℚ)) :
    fftSamplesCheck outSamples (fft_test_expected inSamples) = true ↔
      outSamples.length = inSamples.length ∧
      ∀ i, i < inSamples.length →
        ((outSamples.getD i (0, 0)).1 - (inSamples.getD i (0, 0)).1) ^ 2 +
          ((outSamples.getD i (0, 0)).2 - (inSamples.getD i (0, 0)).2) ^ 2 ≤
            1 / 4000000 := by
  unfold fftSamplesCheck fft_test_expected
  rw [Bool.and_eq_true, beq_iff_eq]
  constructor
  · rintro ⟨h1, h2⟩
    refine ⟨h1, fun i hi => ?_⟩
    have h3 := ((zip_all_getD_iff (fun r e => assertAlmostEqual3c e r) (0, 0) (0, 0)
      outSamples inSamples h1).mp h2) i hi
    rw [assertAlmostEqual3c_iff] at h3
    exact h3
  · rintro ⟨h1, h2⟩
    refine ⟨h1, ?_⟩
    rw [zip_all_getD_iff (fun r e => assertAlmostEqual3c e r) (0, 0) (0, 0)
      outSamples inSamples h1]
    intro i hi
    rw [assertAlmostEqual3c_iff]
    exact h2 i hi

/-- Closed form of the index scan of `prune_zeros`: the fold keeps an already
found start index and otherwise takes the first nonzero one, and takes the
last nonzero index when there is one. -/
lemma prunefold_eq : ∀ (xs : List ℚ) (n : ℕ) (a b : Option ℕ),
    (List.enumFrom n xs).foldl pruneStep (a, b) =
      ((match a with | some s => some s | none => firstNz n xs),
       (match lastNz n xs with | some e => some e | none => b)) := by
  intro xs
  induction xs with
  | nil =>
    intro n a b
    cases a <;> simp [firstNz, lastNz, List.enumFrom]
  | cons x t ih =>
    intro n a b
    have henum : List.enumFrom n (x :: t) = (n, x) :: List.enumFrom (n + 1) t := rfl
    rw [henum, List.foldl_cons]
    by_cases hx : x = 0
    · have hstep : pruneStep (a, b) (n, x) = (a, b) := by
        simp [pruneStep, hx]
      rw [hstep, ih]
      rcases hl : lastNz (n + 1) t with _ | e <;>
        simp [firstNz, lastNz, hx, hl]
    · have hstep : pruneStep (a, b) (n, x) =
          ((match a with | none => some n | some s => some s), some n) := by
        simp [pruneStep, hx]
      rw [hstep, ih]
      cases a <;> rcases hl : lastNz (n + 1) t with _ | e <;>
        simp [firstNz, lastNz, hx, hl]

lemma firstNz_none_iff : ∀ (xs : List ℚ) (n : ℕ),
    firstNz n xs = none ↔ ∀ x ∈ xs, x = 0 := by
  intro xs
  induction xs with
  | nil => intro n; simp [firstNz]
  | cons x t ih =>
    intro n
    by_cases hx : x = 0
    · simp [firstNz, hx, ih (n + 1)]
    · simp [firstNz, hx]

lemma lastNz_none_iff : ∀ (xs : List ℚ) (n : ℕ),
    lastNz n xs = none ↔ ∀ x ∈ xs, x = 0 := by
  intro xs
  induction xs with
  | nil => intro n; simp [lastNz]
  | cons x t ih =>
    intro n
    constructor
    · intro h
      simp only [lastNz] at h
      rcases hl : lastNz (n + 1) t with _ | e
      · rw [hl] at h
        by_cases hx : x = 0
        · intro y hy
          rcases List.mem_cons.mp hy with rfl | hmem
          · exact hx
          · exact (ih (n + 1)).mp hl y hmem
        · rw [if_pos hx] at h
          exact absurd h (by simp)
      · rw [hl] at h
        exact absurd h (by simp)
    · intro hall
      have hnone : lastNz (n + 1) t = none :=
        (ih (n + 1)).mpr fun y hy => hall y (List.mem_cons_of_mem _ hy)
      simp only [lastNz, hnone]
      rw [if_neg (by simp [hall x (List.mem_cons_self x t)])]

lemma getD_zero_of_all_zero {l : List ℚ} (h : ∀ x ∈ l, x = 0) (j : ℕ) :
    l.getD j 0 = 0 := by
  by_cases hj : j < l.length
  · rw [List.getD_eq_getElem _ _ hj]
    exact h _ (l.getElem_mem hj)
  · rw [List.getD_eq_default _ _ (by omega)]

lemma firstNz_some_spec : ∀ (xs : List ℚ) (n s : ℕ), firstNz n xs = some s →
    n ≤ s ∧ s - n < xs.length ∧ xs.getD (s - n) 0 ≠ 0 ∧
      ∀ i, i < s - n → xs.getD i 0 = 0 := by
  intro xs
  induction xs with
  | nil => intro n s h; simp [firstNz] at h
  | cons x t ih =>
    intro n s h
    simp only [firstNz] at h
    by_cases hx : x = 0
    · rw [if_neg (by simp [hx])] at h
      obtain ⟨h1, h2, h3, h4⟩ := ih (n + 1) s h
      have hsn : s - n = (s - (n + 1)) + 1 := by omega
      refine ⟨by omega, by rw [List.length_cons]; omega, ?_, ?_⟩
      · rw [hsn, List.getD_cons_succ]
        exact h3
      · intro i hi
        cases i with
        | zero => simp [hx]
        | succ j =>
          rw [List.getD_cons_succ]
          exact h4 j (by omega)
    · rw [if_pos hx] at h
      injection h with h'
      subst h'
      refine ⟨le_rfl, by simp, by simpa using hx, ?_⟩
      intro i hi
      omega

lemma lastNz_some_spec : ∀ (xs : List ℚ) (n e : ℕ), lastNz n xs = some e →
    n ≤ e ∧ e - n < xs.length ∧ xs.getD (e - n) 0 ≠ 0 ∧
      ∀ i, e - n < i → i < xs.length → xs.getD i 0 = 0 := by
  intro xs
  induction xs with
  | nil => intro n e h; simp [lastNz] at h
  | cons x t ih =>
    intro n e h
    simp only [lastNz] at h
    rcases hl : lastNz (n + 1) t with _ | e'
    · rw [hl] at h
      by_cases hx : x = 0
      · rw [if_neg (by simp [hx])] at h
        exact absurd h (by simp)
      · rw [if_pos hx] at h
        injection h with h'
        subst h'
        have hz : ∀ y ∈ t, y = 0 := (lastNz_none_iff t (n + 1)).mp hl
        refine ⟨le_rfl, by simp, by simpa using hx, ?_⟩
        intro i hgt hlt
        cases i with
        | zero => omega
        | succ j =>
          rw [List.getD_cons_succ]
          exact getD_zero_of_all_zero hz j
    · rw [hl] at h
      injection h with h'
      rw [h'] at hl
      obtain ⟨h1, h2, h3, h4⟩ := ih (n + 1) e hl
      have hen : e - n = (e - (n + 1)) + 1 := by omega
      refine ⟨by omega, by rw [List.length_cons]; omega, ?_, ?_⟩
      · rw [hen, List.getD_cons_succ]
        exact h3
      · intro i hgt hlt
        cases i with
        | zero => omega
        | succ j =>
          rw [List.getD_cons_succ]
          refine h4 j (by omega) ?_
          rw [List.length_cons] at hlt
          omega

/-- C8: `prune_zeros` returns `[]` when the list is empty or all zero, and
otherwise returns the contiguous slice `xs[s : e+1]` where `s` is the first
nonzero index (everything before it is zero, the element there is not) and
`e` the last nonzero index (everything after it is zero, the element there is
not); in particular every dropped element is zero and the slice itself is an
unchanged segment of `xs`. -/
theorem prune_zeros_spec (xs : List ℚ) :
    ((∀ x ∈ xs, x = 0) → prune_zeros xs = []) ∧
    ((∃ x ∈ xs, x ≠ 0) →
      ∃ s e, s ≤ e ∧ e < xs.length ∧
        prune_zeros xs = (xs.drop s).take (e + 1 - s) ∧
        xs.getD s 0 ≠ 0 ∧ (∀ i, i < s → xs.getD i 0 = 0) ∧
        xs.getD e 0 ≠ 0 ∧ (∀ i, e < i → i < xs.length → xs.getD i 0 = 0)) := by
  have henum : xs.enum = List.enumFrom 0 xs := rfl
  have hfold := prunefold_eq xs 0 none none
  constructor
  · intro hz
    have h1 : firstNz 0 xs = none := (firstNz_none_iff xs 0).mpr hz
    rw [prune_zeros, henum, hfold, h1]
  · rintro ⟨x, hx, hnz⟩
    rcases h1 : firstNz 0 xs with _ | s
    · exact absurd ((firstNz_none_iff xs 0).mp h1 x hx) hnz
    rcases h2 : lastNz 0 xs with _ | e
    · exact absurd ((lastNz_none_iff xs 0).mp h2 x hx) hnz
    obtain ⟨-, hs2, hs3, hs4⟩ := firstNz_some_spec xs 0 s h1
    obtain ⟨-, he2, he3, he4⟩ := lastNz_some_spec xs 0 e h2
    simp only [Nat.sub_zero] at hs2 hs3 hs4 he2 he3 he4
    have hse : s ≤ e := by
      by_contra hcon
      push_neg at hcon
      exact hs3 (he4 s hcon hs2)
    refine ⟨s, e, hse, he2, ?_, hs3, hs4, he3, he4⟩
    rw [prune_zeros, henum, hfold, h1, h2]

/-- Witness for C1 at `data = [1, 2]`, `taps = [3, 4]`. -/
theorem convolve_spec_witness :
    (convolve [1, 2] [3, 4]).length = ([1, 2] : List ℚ).length ∧
    ∀ i, i < ([1, 2] : List ℚ).length →
      (convolve [1, 2] [3, 4]).getD i 0 =
        ∑ j ∈ Finset.range ([3, 4] : List ℚ).length,
          (List.replicate (([3, 4] : List ℚ).length - 1) (0 : ℚ) ++ ([1, 2] : List ℚ)).getD
            (([3, 4] : List ℚ).length - 1 + i - j) 0 * ([3, 4] : List ℚ).getD j 0 :=
  convolve_spec [1, 2] [3, 4] (by decide)
